import Mathlib

set_option linter.unusedSectionVars false

/-! Verification of the avltree crate (src/lib.rs): an AVL-balanced binary
search tree with insertion, lookup, and explicit-stack iterators.  Every
definition below is a shallow embedding of the corresponding Rust item;
the Rust code mutates in place, which we model by returning the new tree. -/

namespace Avl

/-- Mirrors the Rust enum AVLTree<T>: Empty, or a boxed Node holding a value,
two child trees and the signed balance factor.  The Node fields are inlined
into the NonEmpty constructor; the i8 balance factor is modelled as Int
(the code keeps it in [-2, 2], so no wrap-around is reachable). -/
inductive AVLTree (T : Type) where
  | Empty : AVLTree T
  | NonEmpty (value : T) (left : AVLTree T) (right : AVLTree T) (balance_factor : Int) : AVLTree T
deriving DecidableEq

variable {T : Type} [LinearOrder T]

namespace AVLTree

/-- Rust Ord::cmp for a linear order: Less iff a < b, Greater iff a > b. -/
def cmp (a b : T) : Ordering :=
  if a < b then .lt else if b < a then .gt else .eq

/-- Height of the tree (the Rust test helper depth()): 0 for Empty,
1 + max of the children's heights otherwise. -/
def height : AVLTree T → Nat
  | .Empty => 0
  | .NonEmpty _ l r _ => max (height l) (height r) + 1

/-- In-order list of stored values (left, value, right). -/
def toList : AVLTree T → List T
  | .Empty => []
  | .NonEmpty v l r _ => toList l ++ v :: toList r

/-- Mirrors AVLTree::len: 1 + left len + right len, computed recursively. -/
def len : AVLTree T → Nat
  | .Empty => 0
  | .NonEmpty _ l r _ => 1 + len l + len r

/-- Mirrors AVLTree::is_empty. -/
def isEmpty : AVLTree T → Bool
  | .Empty => true
  | _ => false

/-- Balance factor of the root node, if any. -/
def rootBF : AVLTree T → Option Int
  | .Empty => none
  | .NonEmpty _ _ _ bf => some bf

/-- Value at the root node, if any (the Rust test helper value()). -/
def rootValue : AVLTree T → Option T
  | .Empty => none
  | .NonEmpty v _ _ _ => some v

/-- Mirrors AVLTree::rotate_right: the left child becomes the root, the old
root becomes its right child and inherits the left child's old right subtree.
Balance factors are carried over unchanged (the Rust rotation does not touch
them).  Rust panics (node() on Empty) when the root or its left child is
Empty; those calls are unreachable from balance, and we model them as the
identity. -/
def rotate_right : AVLTree T → AVLTree T
  | .NonEmpty v (.NonEmpty lv ll lr lbf) r bf => .NonEmpty lv ll (.NonEmpty v lr r bf) lbf
  | t => t

/-- Mirrors AVLTree::rotate_left, the mirror image of rotate_right. -/
def rotate_left : AVLTree T → AVLTree T
  | .NonEmpty v l (.NonEmpty rv rl rr rbf) bf => .NonEmpty rv (.NonEmpty v l rl bf) rr rbf
  | t => t

/-- Mirrors AVLTree::balance.  At balance factor -2 it inspects the left
child's factor: -1 or 0 selects a single right rotation with the fixed
factor table ((0,0) for -1, (-1,1) for 0, assigned to the demoted old root
and the new root); 1 selects the double rotation (left child rotated left,
then the node rotated right) with the factor triple keyed on the old
left-right grandchild's factor.  Balance factor 2 is the exact mirror.
Any other factor leaves the tree unchanged.  The branches in which Rust
would panic or hit unreachable! (a missing child, or a child factor outside
[-1, 1]) are modelled as the identity; they are unreachable from add on a
well-formed tree. -/
def balance : AVLTree T → AVLTree T
  | .Empty => .Empty
  | .NonEmpty v l r bf =>
    if bf = -2 then
      match l with
      | .Empty => .NonEmpty v .Empty r bf
      | .NonEmpty lv ll lr lbf =>
        if lbf = -1 ∨ lbf = 0 then
          let a : Int := if lbf = -1 then 0 else -1
          let b : Int := if lbf = -1 then 0 else 1
          .NonEmpty lv ll (.NonEmpty v lr r a) b
        else if lbf = 1 then
          match lr with
          | .Empty => .NonEmpty v (.NonEmpty lv ll .Empty lbf) r bf
          | .NonEmpty lrv lrl lrr lrbf =>
            if lrbf = -1 ∨ lrbf = 0 ∨ lrbf = 1 then
              let a : Int := if lrbf = -1 then 1 else 0
              let b : Int := if lrbf = 1 then -1 else 0
              .NonEmpty lrv (.NonEmpty lv ll lrl b) (.NonEmpty v lrr r a) 0
            else .NonEmpty v (.NonEmpty lv ll (.NonEmpty lrv lrl lrr lrbf) lbf) r bf
        else .NonEmpty v (.NonEmpty lv ll lr lbf) r bf
    else if bf = 2 then
      match r with
      | .Empty => .NonEmpty v l .Empty bf
      | .NonEmpty rv rl rr rbf =>
        if rbf = 1 ∨ rbf = 0 then
          let a : Int := if rbf = 1 then 0 else 1
          let b : Int := if rbf = 1 then 0 else -1
          .NonEmpty rv (.NonEmpty v l rl a) rr b
        else if rbf = -1 then
          match rl with
          | .Empty => .NonEmpty v l (.NonEmpty rv .Empty rr rbf) bf
          | .NonEmpty rlv rll rlr rlbf =>
            if rlbf = -1 ∨ rlbf = 0 ∨ rlbf = 1 then
              let a : Int := if rlbf = 1 then -1 else 0
              let b : Int := if rlbf = -1 then 1 else 0
              .NonEmpty rlv (.NonEmpty v l rll a) (.NonEmpty rv rlr rr b) 0
            else .NonEmpty v l (.NonEmpty rv (.NonEmpty rlv rll rlr rlbf) rr rbf) bf
        else .NonEmpty v l (.NonEmpty rv rl rr rbf) bf
    else .NonEmpty v l r bf

/-- Mirrors AVLTree::add.  Returns (tree after the call, inserted, deepened).
At Empty a fresh node with factor 0 is materialized; at a node the new value
is compared with the stored one (node.value.cmp(value): Less means the node's
value is smaller, so the insertion goes right).  When the child reports
deepened, the factor moves by +1 (right growth) or -1 (left growth) and the
deepened signal propagated upward is true exactly when the prior factor was
0 (Rust hits unreachable! outside [-1, 1], modelled here by the same
decide (bf = 0) signal).  balance runs before every return, as in the
source. -/
def add : AVLTree T → T → AVLTree T × Bool × Bool
  | .Empty, value => (balance (.NonEmpty value .Empty .Empty 0), true, true)
  | .NonEmpty v l r bf, value =>
    match cmp v value with
    | .eq => (balance (.NonEmpty v l r bf), false, false)
    | .lt =>
      match add r value with
      | (r', inserted, deepened) =>
        if deepened then
          (balance (.NonEmpty v l r' (bf + 1)), inserted, decide (bf = 0))
        else
          (balance (.NonEmpty v l r' bf), inserted, deepened)
    | .gt =>
      match add l value with
      | (l', inserted, deepened) =>
        if deepened then
          (balance (.NonEmpty v l' r (bf - 1)), inserted, decide (bf = 0))
        else
          (balance (.NonEmpty v l' r bf), inserted, deepened)

/-- Mirrors AVLTree::insert: the add entry point, reporting only inserted. -/
def insert (t : AVLTree T) (value : T) : AVLTree T × Bool :=
  ((add t value).1, (add t value).2.1)

/-- Mirrors FromIterator for AVLTree: start from Empty and insert each
element of the sequence in order. -/
def fromList (l : List T) : AVLTree T :=
  l.foldl (fun t v => (insert t v).1) .Empty

/-- Mirrors AVLTree::get: binary search descending by value.cmp(node.value). -/
def get : AVLTree T → T → Option T
  | .Empty, _ => none
  | .NonEmpty v l r _, value =>
    match cmp value v with
    | .lt => get l value
    | .eq => some v
    | .gt => get r value

/-- Mirrors Index for AVLTree: self.get(index).unwrap().  The unwrap panic
on an absent key is modelled by none. -/
def indexAccess (t : AVLTree T) (value : T) : Option T :=
  get t value

end AVLTree

/-- Mirrors the Rust struct Node<T> (used by the iterator stacks, which hold
nodes or node references). -/
structure Node (T : Type) where
  value : T
  left : AVLTree T
  right : AVLTree T
  balance_factor : Int

/-- Mirrors the Rust struct IntoIter<T>: a stack of owned nodes.  The head
of the list is the top of the stack (the last node pushed). -/
structure IntoIter (T : Type) where
  stack : List (Node T)

namespace IntoIter

/-- Mirrors IntoIter::traverse_left: walk down the left spine, pushing each
node with its left pointer cleared and continuing with the old left child. -/
def traverse_left : List (Node T) → AVLTree T → List (Node T)
  | stack, .Empty => stack
  | stack, .NonEmpty v l r bf => traverse_left (⟨v, .Empty, r, bf⟩ :: stack) l

/-- Mirrors IntoIter::new: push the leftmost spine of the whole tree. -/
def new (t : AVLTree T) : IntoIter T :=
  ⟨traverse_left [] t⟩

/-- Mirrors Iterator::next for IntoIter: pop a node, push the leftmost spine
of its right subtree, and yield the node's value. -/
def next : IntoIter T → Option T × IntoIter T
  | ⟨[]⟩ => (none, ⟨[]⟩)
  | ⟨node :: rest⟩ => (some node.value, ⟨traverse_left rest node.right⟩)

/-- Size measure of an iterator stack: each entry still owes its value and
everything in its right subtree. -/
def stackWeight (stack : List (Node T)) : Nat :=
  (stack.map fun n => 1 + AVLTree.len n.right).sum

omit [LinearOrder T] in
theorem stackWeight_cons (n : Node T) (rest : List (Node T)) :
    stackWeight (n :: rest) = 1 + AVLTree.len n.right + stackWeight rest := by
  simp [stackWeight]

omit [LinearOrder T] in
theorem stackWeight_traverse_left (t : AVLTree T) :
    ∀ stack : List (Node T),
      stackWeight (traverse_left stack t) ≤ stackWeight stack + AVLTree.len t := by
  induction t with
  | Empty => intro stack; simp [traverse_left, AVLTree.len]
  | NonEmpty v l r bf ihl ihr =>
    intro stack
    have h := ihl (⟨v, .Empty, r, bf⟩ :: stack)
    simp only [traverse_left]
    refine h.trans ?_
    rw [stackWeight_cons]
    simp [AVLTree.len]
    omega

/-- The full sequence an IntoIter will produce: repeatedly pop, push the
right spine, and collect the yielded values until next returns none (which
happens exactly when the stack is empty). -/
def run : IntoIter T → List T
  | ⟨[]⟩ => []
  | ⟨node :: rest⟩ => node.value :: run ⟨traverse_left rest node.right⟩
termination_by s => stackWeight s.stack
decreasing_by
  show stackWeight (traverse_left rest node.right) < stackWeight (node :: rest)
  have h := stackWeight_traverse_left node.right rest
  rw [stackWeight_cons]
  omega

end IntoIter

/-- Mirrors the Rust struct RangeIter<'a, T, K>: the optional exclusive end
bound and a stack of node references (head = top of stack). -/
structure RangeIter (T : Type) where
  endv : Option T
  stack : List (Node T)

namespace RangeIter

/-- Mirrors RangeIter::traverse_left: push every node on the left spine. -/
def traverse_left : List (Node T) → AVLTree T → List (Node T)
  | stack, .Empty => stack
  | stack, .NonEmpty v l r bf => traverse_left (⟨v, l, r, bf⟩ :: stack) l

/-- Mirrors RangeIter::traverse: position the stack for the start bound,
pushing every node whose value is at least start along the descent and
stopping at an exact hit. -/
def traverse (start : T) : List (Node T) → AVLTree T → List (Node T)
  | stack, .Empty => stack
  | stack, .NonEmpty v l r bf =>
    match AVLTree.cmp start v with
    | .lt => traverse start (⟨v, l, r, bf⟩ :: stack) l
    | .eq => ⟨v, l, r, bf⟩ :: stack
    | .gt => traverse start stack r

/-- Mirrors RangeIter::new: with a start bound position via traverse,
otherwise push the whole leftmost spine. -/
def new (t : AVLTree T) (start : Option T) (endv : Option T) : RangeIter T :=
  ⟨endv, match start with
         | none => traverse_left [] t
         | some s => traverse s [] t⟩

/-- Mirrors Iterator::next for RangeIter: pop a node; with no end bound, or
while the end bound is still strictly greater than the candidate value,
yield it and push the left spine of its right subtree; otherwise yield
nothing (the popped node is discarded and the remaining stack is kept). -/
def next : RangeIter T → Option T × RangeIter T
  | ⟨e, []⟩ => (none, ⟨e, []⟩)
  | ⟨none, n :: rest⟩ => (some n.value, ⟨none, traverse_left rest n.right⟩)
  | ⟨some e, n :: rest⟩ =>
    match AVLTree.cmp e n.value with
    | .gt => (some n.value, ⟨some e, traverse_left rest n.right⟩)
    | _ => (none, ⟨some e, rest⟩)

omit [LinearOrder T] in
theorem stackWeight_rtraverse (t : AVLTree T) :
    ∀ stack : List (Node T),
      IntoIter.stackWeight (traverse_left stack t) ≤
        IntoIter.stackWeight stack + AVLTree.len t := by
  induction t with
  | Empty => intro stack; simp [traverse_left, AVLTree.len]
  | NonEmpty v l r bf ihl ihr =>
    intro stack
    have h := ihl (⟨v, l, r, bf⟩ :: stack)
    simp only [traverse_left]
    refine h.trans ?_
    rw [IntoIter.stackWeight_cons]
    simp [AVLTree.len]
    omega

/-- The full sequence a RangeIter will produce before the first none: pop a
node, yield its value (when the end bound allows it) and push the left spine
of its right subtree; stop at the first failing candidate or when the stack
runs out. -/
def run : RangeIter T → List T
  | ⟨_, []⟩ => []
  | ⟨none, n :: rest⟩ => n.value :: run ⟨none, traverse_left rest n.right⟩
  | ⟨some e, n :: rest⟩ =>
    match AVLTree.cmp e n.value with
    | .gt => n.value :: run ⟨some e, traverse_left rest n.right⟩
    | _ => []
termination_by s => IntoIter.stackWeight s.stack
decreasing_by
  all_goals
    show IntoIter.stackWeight (traverse_left rest n.right) <
      IntoIter.stackWeight (n :: rest)
    have h := stackWeight_rtraverse n.right rest
    rw [IntoIter.stackWeight_cons]
    omega

/-- The values yielded by the first n calls to next (a call that yields
none still advances the iterator state, exactly as repeated next() calls
do in Rust). -/
def runN : Nat → RangeIter T → List T
  | 0, _ => []
  | n + 1, s =>
    match next s with
    | (none, s') => runN n s'
    | (some v, s') => v :: runN n s'

end RangeIter

/-- Mirrors AVLTree::iter: defined as the unbounded range query. -/
def AVLTree.iter (t : AVLTree T) : RangeIter T :=
  RangeIter.new t none none

/-- Mirrors AVLTree::range. -/
def AVLTree.range (t : AVLTree T) (start endv : Option T) : RangeIter T :=
  RangeIter.new t start endv

/-- Every value stored in the tree satisfies p. -/
def All (p : T → Prop) : AVLTree T → Prop
  | .Empty => True
  | .NonEmpty v l r _ => p v ∧ All p l ∧ All p r

def decAll (p : T → Prop) [DecidablePred p] : (t : AVLTree T) → Decidable (All p t)
  | .Empty => .isTrue trivial
  | .NonEmpty v l r _ =>
    haveI := decAll p l
    haveI := decAll p r
    inferInstanceAs (Decidable (p v ∧ All p l ∧ All p r))

instance (p : T → Prop) [DecidablePred p] (t : AVLTree T) : Decidable (All p t) :=
  decAll p t

/-- The binary-search-tree order invariant: at every node, everything on the
left is strictly smaller and everything on the right strictly greater. -/
def Ordered : AVLTree T → Prop
  | .Empty => True
  | .NonEmpty v l r _ => All (fun x => x < v) l ∧ All (fun x => v < x) r ∧ Ordered l ∧ Ordered r

def decOrdered : (t : AVLTree T) → Decidable (Ordered t)
  | .Empty => .isTrue trivial
  | .NonEmpty v l r _ =>
    haveI := decOrdered l
    haveI := decOrdered r
    inferInstanceAs
      (Decidable (All (fun x => x < v) l ∧ All (fun x => v < x) r ∧ Ordered l ∧ Ordered r))

instance (t : AVLTree T) : Decidable (Ordered t) := decOrdered t

/-- Every stored balance factor equals the height of the right subtree minus
the height of the left subtree. -/
def BFok : AVLTree T → Prop
  | .Empty => True
  | .NonEmpty _ l r bf =>
    bf = (AVLTree.height r : Int) - (AVLTree.height l : Int) ∧ BFok l ∧ BFok r

def decBFok : (t : AVLTree T) → Decidable (BFok t)
  | .Empty => .isTrue trivial
  | .NonEmpty _ l r bf =>
    haveI := decBFok l
    haveI := decBFok r
    inferInstanceAs
      (Decidable (bf = (AVLTree.height r : Int) - (AVLTree.height l : Int) ∧ BFok l ∧ BFok r))

instance (t : AVLTree T) : Decidable (BFok t) := decBFok t

/-- The AVL balance invariant: at every node the two children's heights
differ by at most one. -/
def HeightBalanced : AVLTree T → Prop
  | .Empty => True
  | .NonEmpty _ l r _ =>
    ((AVLTree.height l : Int) - AVLTree.height r).natAbs ≤ 1 ∧
      HeightBalanced l ∧ HeightBalanced r

def decHeightBalanced : (t : AVLTree T) → Decidable (HeightBalanced t)
  | .Empty => .isTrue trivial
  | .NonEmpty _ l r _ =>
    haveI := decHeightBalanced l
    haveI := decHeightBalanced r
    inferInstanceAs
      (Decidable (((AVLTree.height l : Int) - AVLTree.height r).natAbs ≤ 1 ∧
        HeightBalanced l ∧ HeightBalanced r))

instance (t : AVLTree T) : Decidable (HeightBalanced t) := decHeightBalanced t

/-- The full well-formedness invariant of a tree at rest: correct balance
factors, AVL height balance, and binary-search-tree order. -/
def Inv (t : AVLTree T) : Prop := BFok t ∧ HeightBalanced t ∧ Ordered t

instance (t : AVLTree T) : Decidable (Inv t) :=
  inferInstanceAs (Decidable (BFok t ∧ HeightBalanced t ∧ Ordered t))

theorem cmp_lt_iff {a b : T} : AVLTree.cmp a b = .lt ↔ a < b := by
  unfold AVLTree.cmp
  split_ifs with h1 h2 <;> simp_all

theorem cmp_gt_iff {a b : T} : AVLTree.cmp a b = .gt ↔ b < a := by
  unfold AVLTree.cmp
  split_ifs with h1 h2
  · simp [h1.asymm]
  · simp [h2]
  · simp [h2]

theorem cmp_eq_iff {a b : T} : AVLTree.cmp a b = .eq ↔ a = b := by
  unfold AVLTree.cmp
  split_ifs with h1 h2
  · simp [h1.ne]
  · simp [h2.ne']
  · simp [le_antisymm (not_lt.mp h2) (not_lt.mp h1)]

theorem all_iff {p : T → Prop} : ∀ {t : AVLTree T}, All p t ↔ ∀ x ∈ t.toList, p x := by
  intro t
  induction t with
  | Empty => simp [All, AVLTree.toList]
  | NonEmpty v l r bf ihl ihr =>
    simp only [All, AVLTree.toList, ihl, ihr, List.mem_append, List.mem_cons]
    constructor
    · rintro ⟨hv, hl, hr⟩ x hx
      rcases hx with h | h | h
      · exact hl x h
      · exact h ▸ hv
      · exact hr x h
    · intro h
      exact ⟨h v (Or.inr (Or.inl rfl)), fun x hx => h x (Or.inl hx),
        fun x hx => h x (Or.inr (Or.inr hx))⟩

theorem ordered_iff_pairwise :
    ∀ {t : AVLTree T}, Ordered t ↔ (AVLTree.toList t).Pairwise (· < ·) := by
  intro t
  induction t with
  | Empty => simp [Ordered, AVLTree.toList]
  | NonEmpty v l r bf ihl ihr =>
    simp only [Ordered, AVLTree.toList, ihl, ihr, List.pairwise_append,
      List.pairwise_cons, all_iff, List.mem_cons]
    constructor
    · rintro ⟨hl, hr, pl, pr⟩
      refine ⟨pl, ⟨hr, pr⟩, ?_⟩
      rintro a ha b (rfl | hb)
      · exact hl a ha
      · exact (hl a ha).trans (hr b hb)
    · rintro ⟨pl, ⟨hr, pr⟩, hcross⟩
      exact ⟨fun a ha => hcross a ha v (Or.inl rfl), hr, pl, pr⟩

theorem ordered_node_iff {v : T} {l r : AVLTree T} {bf : Int} :
    Ordered (.NonEmpty v l r bf) ↔
      All (fun x => x < v) l ∧ All (fun x => v < x) r ∧ Ordered l ∧ Ordered r :=
  Iff.rfl

theorem balance_id {v : T} {l r : AVLTree T} {bf : Int} (h1 : bf ≠ -2) (h2 : bf ≠ 2) :
    AVLTree.balance (.NonEmpty v l r bf) = .NonEmpty v l r bf := by
  simp only [AVLTree.balance]
  simp [h1, h2]

theorem toList_balance (t : AVLTree T) :
    (AVLTree.balance t).toList = t.toList := by
  rcases t with _ | ⟨v, l, r, bf⟩
  · rfl
  · simp only [AVLTree.balance]
    repeat' split
    all_goals simp [AVLTree.toList]

theorem balance_nonEmpty {v : T} {l r : AVLTree T} {bf : Int} :
    AVLTree.balance (.NonEmpty v l r bf) ≠ .Empty := by
  simp only [AVLTree.balance]
  repeat' split
  all_goals simp

theorem height_pos_iff {t : AVLTree T} : 0 < t.height ↔ t ≠ .Empty := by
  rcases t with _ | ⟨v, l, r, bf⟩ <;> simp [AVLTree.height]

theorem balance_left_spec (v : T) (l r : AVLTree T)
    (hbl : BFok l) (hbr : BFok r)
    (hBl : HeightBalanced l) (hBr : HeightBalanced r)
    (hh : l.height = r.height + 2) (hbf : l.rootBF ≠ some 0) :
    BFok (AVLTree.balance (.NonEmpty v l r (-2))) ∧
    HeightBalanced (AVLTree.balance (.NonEmpty v l r (-2))) ∧
    (AVLTree.balance (.NonEmpty v l r (-2))).height = l.height := by
  rcases l with _ | ⟨lv, ll, lr, lbf⟩
  · simp [AVLTree.height] at hh
  obtain ⟨hlbf, hbll, hblr⟩ := hbl
  obtain ⟨hBdiff, hBll, hBlr⟩ := hBl
  have hne : lbf ≠ 0 := by simpa [AVLTree.rootBF] using hbf
  have hcase : lbf = -1 ∨ lbf = 1 := by omega
  simp only [AVLTree.height] at hh
  rcases hcase with h1 | h1
  · subst h1
    have e : AVLTree.balance (.NonEmpty v (.NonEmpty lv ll lr (-1)) r (-2)) =
        .NonEmpty lv ll (.NonEmpty v lr r 0) 0 := by
      norm_num [AVLTree.balance]
    rw [e]
    simp only [BFok, HeightBalanced, AVLTree.height] at hlbf hBdiff ⊢
    refine ⟨⟨by omega, hbll, by omega, hblr, hbr⟩,
      ⟨by omega, hBll, by omega, hBlr, hBr⟩, by omega⟩
  · subst h1
    rcases lr with _ | ⟨lrv, lrl, lrr, lrbf⟩
    · simp [AVLTree.height] at hlbf
      omega
    obtain ⟨hlrbf, hblrl, hblrr⟩ := hblr
    obtain ⟨hBdiff2, hBlrl, hBlrr⟩ := hBlr
    simp only [AVLTree.height] at hlbf hh hBdiff hlrbf hBdiff2
    have hcase2 : lrbf = -1 ∨ lrbf = 0 ∨ lrbf = 1 := by omega
    rcases hcase2 with h2 | h2 | h2 <;> subst h2
    · have e : AVLTree.balance
          (.NonEmpty v (.NonEmpty lv ll (.NonEmpty lrv lrl lrr (-1)) 1) r (-2)) =
          .NonEmpty lrv (.NonEmpty lv ll lrl 0) (.NonEmpty v lrr r 1) 0 := by
        norm_num [AVLTree.balance]
      rw [e]
      simp only [BFok, HeightBalanced, AVLTree.height]
      refine ⟨⟨by omega, ⟨by omega, hbll, hblrl⟩, by omega, hblrr, hbr⟩,
        ⟨by omega, ⟨by omega, hBll, hBlrl⟩, by omega, hBlrr, hBr⟩, by omega⟩
    · have e : AVLTree.balance
          (.NonEmpty v (.NonEmpty lv ll (.NonEmpty lrv lrl lrr 0) 1) r (-2)) =
          .NonEmpty lrv (.NonEmpty lv ll lrl 0) (.NonEmpty v lrr r 0) 0 := by
        norm_num [AVLTree.balance]
      rw [e]
      simp only [BFok, HeightBalanced, AVLTree.height]
      refine ⟨⟨by omega, ⟨by omega, hbll, hblrl⟩, by omega, hblrr, hbr⟩,
        ⟨by omega, ⟨by omega, hBll, hBlrl⟩, by omega, hBlrr, hBr⟩, by omega⟩
    · have e : AVLTree.balance
          (.NonEmpty v (.NonEmpty lv ll (.NonEmpty lrv lrl lrr 1) 1) r (-2)) =
          .NonEmpty lrv (.NonEmpty lv ll lrl (-1)) (.NonEmpty v lrr r 0) 0 := by
        norm_num [AVLTree.balance]
      rw [e]
      simp only [BFok, HeightBalanced, AVLTree.height]
      refine ⟨⟨by omega, ⟨by omega, hbll, hblrl⟩, by omega, hblrr, hbr⟩,
        ⟨by omega, ⟨by omega, hBll, hBlrl⟩, by omega, hBlrr, hBr⟩, by omega⟩

theorem balance_right_spec (v : T) (l r : AVLTree T)
    (hbl : BFok l) (hbr : BFok r)
    (hBl : HeightBalanced l) (hBr : HeightBalanced r)
    (hh : r.height = l.height + 2) (hbf : r.rootBF ≠ some 0) :
    BFok (AVLTree.balance (.NonEmpty v l r 2)) ∧
    HeightBalanced (AVLTree.balance (.NonEmpty v l r 2)) ∧
    (AVLTree.balance (.NonEmpty v l r 2)).height = r.height := by
  rcases r with _ | ⟨rv, rl, rr, rbf⟩
  · simp [AVLTree.height] at hh
  obtain ⟨hrbf, hbrl, hbrr⟩ := hbr
  obtain ⟨hBdiff, hBrl, hBrr⟩ := hBr
  have hne : rbf ≠ 0 := by simpa [AVLTree.rootBF] using hbf
  have hcase : rbf = -1 ∨ rbf = 1 := by omega
  simp only [AVLTree.height] at hh
  rcases hcase with h1 | h1
  · subst h1
    rcases rl with _ | ⟨rlv, rll, rlr, rlbf⟩
    · exfalso
      simp only [AVLTree.height] at hrbf
      omega
    obtain ⟨hrlbf, hbrll, hbrlr⟩ := hbrl
    obtain ⟨hBdiff2, hBrll, hBrlr⟩ := hBrl
    simp only [AVLTree.height] at hrbf hh hBdiff hrlbf hBdiff2
    have hcase2 : rlbf = -1 ∨ rlbf = 0 ∨ rlbf = 1 := by omega
    rcases hcase2 with h2 | h2 | h2 <;> subst h2
    · have e : AVLTree.balance
          (.NonEmpty v l (.NonEmpty rv (.NonEmpty rlv rll rlr (-1)) rr (-1)) 2) =
          .NonEmpty rlv (.NonEmpty v l rll 0) (.NonEmpty rv rlr rr 1) 0 := by
        norm_num [AVLTree.balance]
      rw [e]
      simp only [BFok, HeightBalanced, AVLTree.height]
      refine ⟨⟨by omega, ⟨by omega, hbl, hbrll⟩, by omega, hbrlr, hbrr⟩,
        ⟨by omega, ⟨by omega, hBl, hBrll⟩, by omega, hBrlr, hBrr⟩, by omega⟩
    · have e : AVLTree.balance
          (.NonEmpty v l (.NonEmpty rv (.NonEmpty rlv rll rlr 0) rr (-1)) 2) =
          .NonEmpty rlv (.NonEmpty v l rll 0) (.NonEmpty rv rlr rr 0) 0 := by
        norm_num [AVLTree.balance]
      rw [e]
      simp only [BFok, HeightBalanced, AVLTree.height]
      refine ⟨⟨by omega, ⟨by omega, hbl, hbrll⟩, by omega, hbrlr, hbrr⟩,
        ⟨by omega, ⟨by omega, hBl, hBrll⟩, by omega, hBrlr, hBrr⟩, by omega⟩
    · have e : AVLTree.balance
          (.NonEmpty v l (.NonEmpty rv (.NonEmpty rlv rll rlr 1) rr (-1)) 2) =
          .NonEmpty rlv (.NonEmpty v l rll (-1)) (.NonEmpty rv rlr rr 0) 0 := by
        norm_num [AVLTree.balance]
      rw [e]
      simp only [BFok, HeightBalanced, AVLTree.height]
      refine ⟨⟨by omega, ⟨by omega, hbl, hbrll⟩, by omega, hbrlr, hbrr⟩,
        ⟨by omega, ⟨by omega, hBl, hBrll⟩, by omega, hBrlr, hBrr⟩, by omega⟩
  · subst h1
    have e : AVLTree.balance (.NonEmpty v l (.NonEmpty rv rl rr 1) 2) =
        .NonEmpty rv (.NonEmpty v l rl 0) rr 0 := by
      norm_num [AVLTree.balance]
    rw [e]
    simp only [BFok, HeightBalanced, AVLTree.height] at hrbf hBdiff ⊢
    refine ⟨⟨by omega, ⟨by omega, hbl, hbrl⟩, hbrr⟩,
      ⟨by omega, ⟨by omega, hBl, hBrl⟩, hBrr⟩, by omega⟩

theorem inv_node {v : T} {l r : AVLTree T} {bf : Int} (h : Inv (.NonEmpty v l r bf)) :
    Inv l ∧ Inv r ∧ bf = (r.height : Int) - l.height ∧
      ((l.height : Int) - r.height).natAbs ≤ 1 ∧
      All (fun x => x < v) l ∧ All (fun x => v < x) r := by
  obtain ⟨⟨h1, h2, h3⟩, ⟨h4, h5, h6⟩, ⟨h7, h8, h9, h10⟩⟩ := h
  exact ⟨⟨h2, h5, h9⟩, ⟨h3, h6, h10⟩, h1, h4, h7, h8⟩

theorem mem_node_right {v value : T} {l r : AVLTree T} {bf : Int}
    (hv : v < value) (hol : All (fun x => x < v) l) :
    value ∈ (AVLTree.NonEmpty v l r bf).toList ↔ value ∈ r.toList := by
  simp only [AVLTree.toList, List.mem_append, List.mem_cons]
  constructor
  · rintro (h | h | h)
    · exact absurd (all_iff.mp hol value h) (asymm hv)
    · exact absurd h hv.ne'
    · exact h
  · exact fun h => Or.inr (Or.inr h)

theorem mem_node_left {v value : T} {l r : AVLTree T} {bf : Int}
    (hv : value < v) (hor : All (fun x => v < x) r) :
    value ∈ (AVLTree.NonEmpty v l r bf).toList ↔ value ∈ l.toList := by
  simp only [AVLTree.toList, List.mem_append, List.mem_cons]
  constructor
  · rintro (h | h | h)
    · exact h
    · exact absurd h hv.ne
    · exact absurd (all_iff.mp hor value h) (asymm hv)
  · exact fun h => Or.inl h

theorem all_of_perm {p : T → Prop} {t : AVLTree T} {l0 : List T}
    (h : t.toList.Perm l0) (hp : ∀ x ∈ l0, p x) : All p t :=
  all_iff.mpr fun x hx => hp x (h.subset hx)

theorem perm_insert_right {a v : T} {xs ys zs : List T} (h : zs.Perm (a :: ys)) :
    (xs ++ v :: zs).Perm (a :: (xs ++ v :: ys)) := by
  refine ((h.cons v).append_left xs).trans ?_
  refine ((List.Perm.swap a v ys).append_left xs).trans ?_
  exact List.perm_middle

theorem perm_insert_left {a v : T} {xs ys zs : List T} (h : zs.Perm (a :: xs)) :
    (zs ++ v :: ys).Perm (a :: (xs ++ v :: ys)) := by
  simpa using h.append_right (v :: ys)

theorem add_spec (value : T) :
    ∀ t : AVLTree T, Inv t →
      Inv (AVLTree.add t value).1 ∧
      (value ∈ t.toList → AVLTree.add t value = (t, false, false)) ∧
      (value ∉ t.toList →
        (AVLTree.add t value).2.1 = true ∧
        (AVLTree.add t value).1.toList.Perm (value :: t.toList)) ∧
      (AVLTree.add t value).1.height =
        t.height + (if (AVLTree.add t value).2.2 then 1 else 0) ∧
      ((AVLTree.add t value).2.2 = true →
        t = .Empty ∨ (AVLTree.add t value).1.rootBF ≠ some 0) := by
  intro t
  induction t with
  | Empty =>
    intro _
    have e0 : AVLTree.add (.Empty : AVLTree T) value =
        (.NonEmpty value .Empty .Empty 0, true, true) := by
      simp [AVLTree.add, AVLTree.balance]
    rw [e0]
    refine ⟨⟨⟨by simp [AVLTree.height], trivial, trivial⟩,
      ⟨by simp [AVLTree.height], trivial, trivial⟩,
      trivial, trivial, trivial, trivial⟩, ?_, ?_, ?_, ?_⟩
    · intro h; simp [AVLTree.toList] at h
    · intro _
      exact ⟨rfl, List.Perm.refl [value]⟩
    · simp [AVLTree.height]
    · intro _; exact Or.inl rfl
  | NonEmpty v l r bf ihl ihr =>
    intro ht
    obtain ⟨hInvl, hInvr, hbfeq, hBdiff, hol, hor⟩ := inv_node ht
    have hOl : Ordered l := hInvl.2.2
    have hOr : Ordered r := hInvr.2.2
    cases hc : AVLTree.cmp v value with
    | eq =>
      have hveq : v = value := cmp_eq_iff.mp hc
      have hne2 : bf ≠ -2 := by omega
      have hne2' : bf ≠ 2 := by omega
      have e0 : AVLTree.add (.NonEmpty v l r bf) value =
          (.NonEmpty v l r bf, false, false) := by
        simp [AVLTree.add, hc, balance_id hne2 hne2']
      rw [e0]
      refine ⟨ht, fun _ => rfl, ?_, by simp, fun h => by simp at h⟩
      intro hnm
      have hvmem : value ∈ (AVLTree.NonEmpty v l r bf).toList := by
        rw [← hveq]
        simp [AVLTree.toList]
      exact absurd hvmem hnm
    | lt =>
      have hv : v < value := cmp_lt_iff.mp hc
      obtain ⟨ihInv, ihMem, ihNot, ihH, ihBF⟩ := ihr hInvr
      rcases har : AVLTree.add r value with ⟨r', ins, dp⟩
      rw [har] at ihInv ihMem ihNot ihH ihBF
      dsimp only at ihInv ihMem ihNot ihH ihBF
      have hmem : value ∈ (AVLTree.NonEmpty v l r bf).toList ↔ value ∈ r.toList :=
        mem_node_right hv hol
      cases dp with
      | false =>
        have hne2 : bf ≠ -2 := by omega
        have hne2' : bf ≠ 2 := by omega
        have e0 : AVLTree.add (.NonEmpty v l r bf) value =
            (.NonEmpty v l r' bf, ins, false) := by
          simp [AVLTree.add, hc, har, balance_id hne2 hne2']
        rw [e0]
        have hr'h : r'.height = r.height := by simpa using ihH
        by_cases hm : value ∈ r.toList
        · have h3 := ihMem hm
          simp only [Prod.mk.injEq] at h3
          obtain ⟨hr'r, hins, -⟩ := h3
          subst hr'r; subst hins
          refine ⟨ht, fun _ => rfl, ?_, by simp, fun h => by simp at h⟩
          intro hnm
          exact absurd (hmem.mpr hm) hnm
        · obtain ⟨hins, hperm⟩ := ihNot hm
          subst hins
          have hallr' : All (fun x => v < x) r' := all_of_perm hperm (fun x hx => by
            rcases List.mem_cons.mp hx with rfl | hx'
            · exact hv
            · exact all_iff.mp hor x hx')
          refine ⟨?_, ?_, ?_, ?_, fun h => by simp at h⟩
          · exact ⟨⟨by rw [hr'h]; exact hbfeq, hInvl.1, ihInv.1⟩,
              ⟨by rw [hr'h]; exact hBdiff, hInvl.2.1, ihInv.2.1⟩,
              hol, hallr', hOl, ihInv.2.2⟩
          · intro hin; exact absurd (hmem.mp hin) hm
          · intro _
            refine ⟨rfl, ?_⟩
            simp only [AVLTree.toList]
            exact perm_insert_right hperm
          · simp [AVLTree.height, hr'h]
      | true =>
        have hnm : value ∉ r.toList := by
          intro hm
          have h3 := ihMem hm
          simp only [Prod.mk.injEq] at h3
          exact Bool.noConfusion h3.2.2
        obtain ⟨hins, hperm⟩ := ihNot hnm
        subst hins
        have hr'h : r'.height = r.height + 1 := by simpa using ihH
        have hallr' : All (fun x => v < x) r' := all_of_perm hperm (fun x hx => by
          rcases List.mem_cons.mp hx with rfl | hx'
          · exact hv
          · exact all_iff.mp hor x hx')
        have hOr' : Ordered r' := ihInv.2.2
        have e0 : AVLTree.add (.NonEmpty v l r bf) value =
            (AVLTree.balance (.NonEmpty v l r' (bf + 1)), true, decide (bf = 0)) := by
          simp [AVLTree.add, hc, har]
        rw [e0]
        have hbf3 : bf = -1 ∨ bf = 0 ∨ bf = 1 := by omega
        rcases hbf3 with hb | hb | hb <;> subst hb
        · have e1 : AVLTree.balance (.NonEmpty v l r' (-1 + 1)) = .NonEmpty v l r' 0 := by
            rw [show (-1 + 1 : Int) = 0 from by norm_num,
              balance_id (by norm_num) (by norm_num)]
          rw [e1]
          refine ⟨?_, ?_, ?_, ?_, fun h => by simp at h⟩
          · exact ⟨⟨by omega, hInvl.1, ihInv.1⟩,
              ⟨by omega, hInvl.2.1, ihInv.2.1⟩,
              hol, hallr', hOl, hOr'⟩
          · intro hin; exact absurd (hmem.mp hin) hnm
          · intro _
            refine ⟨rfl, ?_⟩
            simp only [AVLTree.toList]
            exact perm_insert_right hperm
          · simp [AVLTree.height]
            omega
        · have e1 : AVLTree.balance (.NonEmpty v l r' (0 + 1)) = .NonEmpty v l r' 1 := by
            rw [show (0 + 1 : Int) = 1 from by norm_num,
              balance_id (by norm_num) (by norm_num)]
          rw [e1]
          refine ⟨?_, ?_, ?_, ?_, ?_⟩
          · exact ⟨⟨by omega, hInvl.1, ihInv.1⟩,
              ⟨by omega, hInvl.2.1, ihInv.2.1⟩,
              hol, hallr', hOl, hOr'⟩
          · intro hin; exact absurd (hmem.mp hin) hnm
          · intro _
            refine ⟨rfl, ?_⟩
            simp only [AVLTree.toList]
            exact perm_insert_right hperm
          · simp [AVLTree.height]
            omega
          · intro _
            right
            simp [AVLTree.rootBF]
        · have hrne : r ≠ .Empty := by
            intro h
            subst h
            simp only [AVLTree.height] at hbfeq
            omega
          have hbfr' : r'.rootBF ≠ some 0 := by
            rcases ihBF rfl with h | h
            · exact absurd h hrne
            · exact h
          rw [show (1 + 1 : Int) = 2 from by norm_num]
          obtain ⟨hB1, hB2, hB3⟩ := balance_right_spec v l r'
            hInvl.1 ihInv.1 hInvl.2.1 ihInv.2.1 (by omega) hbfr'
          have hOX : Ordered (AVLTree.balance (.NonEmpty v l r' 2)) := by
            rw [ordered_iff_pairwise, toList_balance, ← ordered_iff_pairwise]
            exact ⟨hol, hallr', hOl, hOr'⟩
          refine ⟨⟨hB1, hB2, hOX⟩, ?_, ?_, ?_, fun h => by simp at h⟩
          · intro hin; exact absurd (hmem.mp hin) hnm
          · intro _
            refine ⟨rfl, ?_⟩
            rw [toList_balance]
            simp only [AVLTree.toList]
            exact perm_insert_right hperm
          · rw [hB3]
            simp [AVLTree.height]
            omega
    | gt =>
      have hv : value < v := cmp_gt_iff.mp hc
      obtain ⟨ihInv, ihMem, ihNot, ihH, ihBF⟩ := ihl hInvl
      rcases hal : AVLTree.add l value with ⟨l', ins, dp⟩
      rw [hal] at ihInv ihMem ihNot ihH ihBF
      dsimp only at ihInv ihMem ihNot ihH ihBF
      have hmem : value ∈ (AVLTree.NonEmpty v l r bf).toList ↔ value ∈ l.toList :=
        mem_node_left hv hor
      cases dp with
      | false =>
        have hne2 : bf ≠ -2 := by omega
        have hne2' : bf ≠ 2 := by omega
        have e0 : AVLTree.add (.NonEmpty v l r bf) value =
            (.NonEmpty v l' r bf, ins, false) := by
          simp [AVLTree.add, hc, hal, balance_id hne2 hne2']
        rw [e0]
        have hl'h : l'.height = l.height := by simpa using ihH
        by_cases hm : value ∈ l.toList
        · have h3 := ihMem hm
          simp only [Prod.mk.injEq] at h3
          obtain ⟨hl'l, hins, -⟩ := h3
          subst hl'l; subst hins
          refine ⟨ht, fun _ => rfl, ?_, by simp, fun h => by simp at h⟩
          intro hnm
          exact absurd (hmem.mpr hm) hnm
        · obtain ⟨hins, hperm⟩ := ihNot hm
          subst hins
          have hall' : All (fun x => x < v) l' := all_of_perm hperm (fun x hx => by
            rcases List.mem_cons.mp hx with rfl | hx'
            · exact hv
            · exact all_iff.mp hol x hx')
          refine ⟨?_, ?_, ?_, ?_, fun h => by simp at h⟩
          · exact ⟨⟨by rw [hl'h]; exact hbfeq, ihInv.1, hInvr.1⟩,
              ⟨by rw [hl'h]; exact hBdiff, ihInv.2.1, hInvr.2.1⟩,
              hall', hor, ihInv.2.2, hOr⟩
          · intro hin; exact absurd (hmem.mp hin) hm
          · intro _
            refine ⟨rfl, ?_⟩
            simp only [AVLTree.toList]
            exact perm_insert_left hperm
          · simp [AVLTree.height, hl'h]
      | true =>
        have hnm : value ∉ l.toList := by
          intro hm
          have h3 := ihMem hm
          simp only [Prod.mk.injEq] at h3
          exact Bool.noConfusion h3.2.2
        obtain ⟨hins, hperm⟩ := ihNot hnm
        subst hins
        have hl'h : l'.height = l.height + 1 := by simpa using ihH
        have hall' : All (fun x => x < v) l' := all_of_perm hperm (fun x hx => by
          rcases List.mem_cons.mp hx with rfl | hx'
          · exact hv
          · exact all_iff.mp hol x hx')
        have hOl' : Ordered l' := ihInv.2.2
        have e0 : AVLTree.add (.NonEmpty v l r bf) value =
            (AVLTree.balance (.NonEmpty v l' r (bf - 1)), true, decide (bf = 0)) := by
          simp [AVLTree.add, hc, hal]
        rw [e0]
        have hbf3 : bf = -1 ∨ bf = 0 ∨ bf = 1 := by omega
        rcases hbf3 with hb | hb | hb <;> subst hb
        · have hlne : l ≠ .Empty := by
            intro h
            subst h
            simp only [AVLTree.height] at hbfeq
            omega
          have hbfl' : l'.rootBF ≠ some 0 := by
            rcases ihBF rfl with h | h
            · exact absurd h hlne
            · exact h
          rw [show (-1 - 1 : Int) = -2 from by norm_num]
          obtain ⟨hB1, hB2, hB3⟩ := balance_left_spec v l' r
            ihInv.1 hInvr.1 ihInv.2.1 hInvr.2.1 (by omega) hbfl'
          have hOX : Ordered (AVLTree.balance (.NonEmpty v l' r (-2))) := by
            rw [ordered_iff_pairwise, toList_balance, ← ordered_iff_pairwise]
            exact ⟨hall', hor, hOl', hOr⟩
          refine ⟨⟨hB1, hB2, hOX⟩, ?_, ?_, ?_, fun h => by simp at h⟩
          · intro hin; exact absurd (hmem.mp hin) hnm
          · intro _
            refine ⟨rfl, ?_⟩
            rw [toList_balance]
            simp only [AVLTree.toList]
            exact perm_insert_left hperm
          · rw [hB3]
            simp [AVLTree.height]
            omega
        · have e1 : AVLTree.balance (.NonEmpty v l' r (0 - 1)) = .NonEmpty v l' r (-1) := by
            rw [show (0 - 1 : Int) = -1 from by norm_num,
              balance_id (by norm_num) (by norm_num)]
          rw [e1]
          refine ⟨?_, ?_, ?_, ?_, ?_⟩
          · exact ⟨⟨by omega, ihInv.1, hInvr.1⟩,
              ⟨by omega, ihInv.2.1, hInvr.2.1⟩,
              hall', hor, hOl', hOr⟩
          · intro hin; exact absurd (hmem.mp hin) hnm
          · intro _
            refine ⟨rfl, ?_⟩
            simp only [AVLTree.toList]
            exact perm_insert_left hperm
          · simp [AVLTree.height]
            omega
          · intro _
            right
            simp [AVLTree.rootBF]
        · have e1 : AVLTree.balance (.NonEmpty v l' r (1 - 1)) = .NonEmpty v l' r 0 := by
            rw [show (1 - 1 : Int) = 0 from by norm_num,
              balance_id (by norm_num) (by norm_num)]
          rw [e1]
          refine ⟨?_, ?_, ?_, ?_, fun h => by simp at h⟩
          · exact ⟨⟨by omega, ihInv.1, hInvr.1⟩,
              ⟨by omega, ihInv.2.1, hInvr.2.1⟩,
              hall', hor, hOl', hOr⟩
          · intro hin; exact absurd (hmem.mp hin) hnm
          · intro _
            refine ⟨rfl, ?_⟩
            simp only [AVLTree.toList]
            exact perm_insert_left hperm
          · simp [AVLTree.height]
            omega

theorem inv_empty : Inv (.Empty : AVLTree T) := ⟨trivial, trivial, trivial⟩

theorem foldl_inv (l : List T) :
    ∀ t : AVLTree T, Inv t →
      Inv (l.foldl (fun t v => (AVLTree.insert t v).1) t) := by
  induction l with
  | nil => intro t ht; simpa using ht
  | cons a as ih =>
    intro t ht
    simp only [List.foldl_cons]
    exact ih _ ((add_spec a t ht).1)

theorem fromList_inv (l : List T) : Inv (AVLTree.fromList l) :=
  foldl_inv l .Empty inv_empty

theorem mem_add {t : AVLTree T} {v x : T} (ht : Inv t) :
    x ∈ (AVLTree.add t v).1.toList ↔ x = v ∨ x ∈ t.toList := by
  obtain ⟨-, hMem, hNot, -, -⟩ := add_spec v t ht
  by_cases hm : v ∈ t.toList
  · rw [hMem hm]
    constructor
    · exact Or.inr
    · rintro (rfl | h)
      · exact hm
      · exact h
  · have hperm := (hNot hm).2
    rw [hperm.mem_iff]
    simp [List.mem_cons]

theorem mem_foldl (x : T) (l : List T) :
    ∀ t : AVLTree T, Inv t →
      (x ∈ (l.foldl (fun t v => (AVLTree.insert t v).1) t).toList ↔
        x ∈ t.toList ∨ x ∈ l) := by
  induction l with
  | nil => intro t ht; simp
  | cons a as ih =>
    intro t ht
    simp only [List.foldl_cons, List.mem_cons]
    have hInv' : Inv (AVLTree.insert t a).1 := (add_spec a t ht).1
    rw [ih _ hInv']
    have hmemins : x ∈ (AVLTree.insert t a).1.toList ↔ x = a ∨ x ∈ t.toList :=
      mem_add ht
    rw [hmemins]
    tauto

theorem mem_fromList {x : T} (l : List T) :
    x ∈ (AVLTree.fromList l).toList ↔ x ∈ l := by
  have h := mem_foldl x l .Empty inv_empty
  simpa [AVLTree.toList] using h

theorem toList_nodup {t : AVLTree T} (h : Ordered t) : t.toList.Nodup :=
  (ordered_iff_pairwise.mp h).imp (fun hlt => ne_of_lt hlt)

/-- C1: if the tree already contains an element equal to the value, insert
leaves the tree unchanged and returns false; otherwise it returns true and
the new tree holds exactly the old elements plus the value, in sorted order,
with the AVL balance re-established before the call returns. -/
theorem insert_contract (t : AVLTree T) (value : T) (h : Inv t) :
    (value ∈ t.toList → AVLTree.insert t value = (t, false)) ∧
    (value ∉ t.toList →
      (AVLTree.insert t value).2 = true ∧
      (AVLTree.insert t value).1.toList.Perm (value :: t.toList) ∧
      (AVLTree.insert t value).1.toList.Pairwise (fun a b => a < b) ∧
      BFok (AVLTree.insert t value).1 ∧ HeightBalanced (AVLTree.insert t value).1 ∧
      Ordered (AVLTree.insert t value).1) := by
  obtain ⟨hInv, hMem, hNot, -, -⟩ := add_spec value t h
  constructor
  · intro hm
    unfold AVLTree.insert
    rw [hMem hm]
  · intro hm
    obtain ⟨hins, hperm⟩ := hNot hm
    exact ⟨hins, hperm, ordered_iff_pairwise.mp hInv.2.2, hInv.1, hInv.2.1, hInv.2.2⟩

theorem insert_contract_witness :
    AVLTree.insert (AVLTree.fromList [(2 : Int), 1]) 2 = (AVLTree.fromList [(2 : Int), 1], false) :=
  (insert_contract (AVLTree.fromList [(2 : Int), 1]) 2 (by decide)).1 (by decide)

/-- C2: after every completed public operation (bulk construction from any
input sequence, and any further insert), every node's stored balance factor
equals the height of its right subtree minus the height of its left subtree,
and that difference lies in [-1, 1]. -/
theorem avl_balance_invariant (l : List T) (v : T) :
    BFok (AVLTree.fromList l) ∧ HeightBalanced (AVLTree.fromList l) ∧
    BFok (AVLTree.insert (AVLTree.fromList l) v).1 ∧
    HeightBalanced (AVLTree.insert (AVLTree.fromList l) v).1 := by
  have h1 := fromList_inv l
  have h2 := (add_spec v _ h1).1
  exact ⟨h1.1, h1.2.1, h2.1, h2.2.1⟩

/-- C3: after every completed public operation the binary-search-tree order
invariant holds at every node, and consequently the stored elements are
pairwise distinct. -/
theorem bst_order_invariant (l : List T) (v : T) :
    Ordered (AVLTree.fromList l) ∧ (AVLTree.fromList l).toList.Nodup ∧
    Ordered (AVLTree.insert (AVLTree.fromList l) v).1 ∧
    (AVLTree.insert (AVLTree.fromList l) v).1.toList.Nodup := by
  have h1 := fromList_inv l
  have h2 := (add_spec v _ h1).1
  exact ⟨h1.2.2, toList_nodup h1.2.2, h2.2.2, toList_nodup h2.2.2⟩

theorem get_some_imp {k x : T} :
    ∀ {t : AVLTree T}, AVLTree.get t k = some x → x = k ∧ k ∈ t.toList := by
  intro t
  induction t with
  | Empty => intro h; simp [AVLTree.get] at h
  | NonEmpty v l r bf ihl ihr =>
    intro h
    cases hc : AVLTree.cmp k v with
    | lt =>
      simp only [AVLTree.get, hc] at h
      obtain ⟨h1, h2⟩ := ihl h
      exact ⟨h1, by simp [AVLTree.toList]; exact Or.inl h2⟩
    | eq =>
      simp only [AVLTree.get, hc, Option.some.injEq] at h
      have hk : k = v := cmp_eq_iff.mp hc
      exact ⟨h ▸ hk.symm ▸ rfl, by simp [AVLTree.toList, hk]⟩
    | gt =>
      simp only [AVLTree.get, hc] at h
      obtain ⟨h1, h2⟩ := ihr h
      exact ⟨h1, by simp [AVLTree.toList]; exact Or.inr (Or.inr h2)⟩

theorem get_complete {k : T} :
    ∀ {t : AVLTree T}, Ordered t → k ∈ t.toList → AVLTree.get t k = some k := by
  intro t
  induction t with
  | Empty => intro _ h; simp [AVLTree.toList] at h
  | NonEmpty v l r bf ihl ihr =>
    intro ho hm
    obtain ⟨hol, hor, hOl, hOr⟩ := ho
    simp only [AVLTree.toList, List.mem_append, List.mem_cons] at hm
    rcases hm with h | h | h
    · have hc : AVLTree.cmp k v = .lt := cmp_lt_iff.mpr (all_iff.mp hol k h)
      simp only [AVLTree.get, hc]
      exact ihl hOl h
    · have hc : AVLTree.cmp k v = .eq := cmp_eq_iff.mpr h
      simp only [AVLTree.get, hc]
      rw [h]
    · have hc : AVLTree.cmp k v = .gt := cmp_gt_iff.mpr (all_iff.mp hor k h)
      simp only [AVLTree.get, hc]
      exact ihr hOr h

/-- C9: get returns the stored element when a key comparing equal is present
and none otherwise; indexed access is get followed by unwrap, so it agrees
with get on present keys and panics (modelled by none) exactly on absent
keys. -/
theorem get_index_contract (t : AVLTree T) (k : T) (h : Ordered t) :
    (AVLTree.get t k = some k ↔ k ∈ t.toList) ∧
    (AVLTree.get t k = none ↔ k ∉ t.toList) ∧
    AVLTree.indexAccess t k = AVLTree.get t k ∧
    (AVLTree.indexAccess t k = none ↔ k ∉ t.toList) := by
  have h1 : AVLTree.get t k = some k ↔ k ∈ t.toList := by
    constructor
    · intro hg; exact (get_some_imp hg).2
    · exact get_complete h
  have h2 : AVLTree.get t k = none ↔ k ∉ t.toList := by
    constructor
    · intro hg hm
      rw [get_complete h hm] at hg
      exact Option.noConfusion hg
    · intro hm
      cases hg : AVLTree.get t k with
      | none => rfl
      | some x =>
        obtain ⟨rfl, hmem⟩ := get_some_imp hg
        exact absurd hmem hm
  exact ⟨h1, h2, rfl, h2⟩

theorem get_index_contract_witness :
    AVLTree.get (AVLTree.fromList [(1 : Nat), 2]) 2 = some 2 ∧
    AVLTree.indexAccess (AVLTree.fromList [(1 : Nat), 2]) 3 = none :=
  ⟨(get_index_contract (AVLTree.fromList [(1 : Nat), 2]) 2 (by decide)).1.mpr (by decide),
    (get_index_contract (AVLTree.fromList [(1 : Nat), 2]) 3 (by decide)).2.2.2.mpr (by decide)⟩

/-- C6: when a child subtree reports that it grew taller, the node moves its
balance factor by +1 for growth on the right and -1 for growth on the left,
reports "grew taller" upward exactly when its prior factor was 0, and the
deepened signal is truthful: on a well-formed tree the resulting height
grows by one exactly when the signal says so. -/
theorem add_growth_signal (v value : T) (l r l' r' : AVLTree T) (bf : Int) (i j : Bool) :
    (AVLTree.cmp v value = .lt → AVLTree.add r value = (r', i, true) →
      AVLTree.add (.NonEmpty v l r bf) value =
        (AVLTree.balance (.NonEmpty v l r' (bf + 1)), i, decide (bf = 0))) ∧
    (AVLTree.cmp v value = .gt → AVLTree.add l value = (l', j, true) →
      AVLTree.add (.NonEmpty v l r bf) value =
        (AVLTree.balance (.NonEmpty v l' r (bf - 1)), j, decide (bf = 0))) ∧
    (∀ t : AVLTree T, Inv t →
      (AVLTree.add t value).1.height =
        t.height + (if (AVLTree.add t value).2.2 then 1 else 0)) := by
  refine ⟨?_, ?_, ?_⟩
  · intro hc har
    simp [AVLTree.add, hc, har]
  · intro hc hal
    simp [AVLTree.add, hc, hal]
  · intro t ht
    exact (add_spec value t ht).2.2.2.1

theorem add_growth_signal_witness :
    AVLTree.add (.NonEmpty (1 : Nat) .Empty .Empty 0) 2 =
      (AVLTree.balance (.NonEmpty (1 : Nat) .Empty (.NonEmpty 2 .Empty .Empty 0) (0 + 1)),
        true, decide ((0 : Int) = 0)) ∧
    (AVLTree.add (AVLTree.fromList [(3 : Nat)]) 2).1.height =
      (AVLTree.fromList [(3 : Nat)]).height +
        (if (AVLTree.add (AVLTree.fromList [(3 : Nat)]) 2).2.2 then 1 else 0) :=
  ⟨(add_growth_signal 1 2 .Empty .Empty .Empty (.NonEmpty 2 .Empty .Empty 0) 0 true true).1
      (by decide) (by decide),
    (add_growth_signal 1 2 .Empty .Empty .Empty .Empty 0 true true).2.2
      (AVLTree.fromList [(3 : Nat)]) (by decide)⟩

/-- C7: the balance step follows the fixed rotation tables of the source: at
factor -2 a left child factor of -1 or 0 yields the single right rotation
with factors (0,0) and (-1,1) respectively; a left child factor of 1 yields
the double rotation with the (right-child, left-child, root) factor triple
(1,0,0), (0,0,0), (0,-1,0) keyed on the left-right grandchild's prior factor
-1, 0, 1; factor 2 is the exact mirror; factors -1, 0, 1 rotate nothing. -/
theorem balance_rotation_tables (v lv lrv rv rlv : T)
    (ll lr lrl lrr l r rl rr rll rlr : AVLTree T) :
    AVLTree.balance (.NonEmpty v (.NonEmpty lv ll lr (-1)) r (-2)) =
      .NonEmpty lv ll (.NonEmpty v lr r 0) 0 ∧
    AVLTree.balance (.NonEmpty v (.NonEmpty lv ll lr 0) r (-2)) =
      .NonEmpty lv ll (.NonEmpty v lr r (-1)) 1 ∧
    AVLTree.balance (.NonEmpty v (.NonEmpty lv ll (.NonEmpty lrv lrl lrr (-1)) 1) r (-2)) =
      .NonEmpty lrv (.NonEmpty lv ll lrl 0) (.NonEmpty v lrr r 1) 0 ∧
    AVLTree.balance (.NonEmpty v (.NonEmpty lv ll (.NonEmpty lrv lrl lrr 0) 1) r (-2)) =
      .NonEmpty lrv (.NonEmpty lv ll lrl 0) (.NonEmpty v lrr r 0) 0 ∧
    AVLTree.balance (.NonEmpty v (.NonEmpty lv ll (.NonEmpty lrv lrl lrr 1) 1) r (-2)) =
      .NonEmpty lrv (.NonEmpty lv ll lrl (-1)) (.NonEmpty v lrr r 0) 0 ∧
    AVLTree.balance (.NonEmpty v l (.NonEmpty rv rl rr 1) 2) =
      .NonEmpty rv (.NonEmpty v l rl 0) rr 0 ∧
    AVLTree.balance (.NonEmpty v l (.NonEmpty rv rl rr 0) 2) =
      .NonEmpty rv (.NonEmpty v l rl 1) rr (-1) ∧
    AVLTree.balance (.NonEmpty v l (.NonEmpty rv (.NonEmpty rlv rll rlr 1) rr (-1)) 2) =
      .NonEmpty rlv (.NonEmpty v l rll (-1)) (.NonEmpty rv rlr rr 0) 0 ∧
    AVLTree.balance (.NonEmpty v l (.NonEmpty rv (.NonEmpty rlv rll rlr 0) rr (-1)) 2) =
      .NonEmpty rlv (.NonEmpty v l rll 0) (.NonEmpty rv rlr rr 0) 0 ∧
    AVLTree.balance (.NonEmpty v l (.NonEmpty rv (.NonEmpty rlv rll rlr (-1)) rr (-1)) 2) =
      .NonEmpty rlv (.NonEmpty v l rll 0) (.NonEmpty rv rlr rr 1) 0 ∧
    AVLTree.balance (.NonEmpty v l r (-1)) = .NonEmpty v l r (-1) ∧
    AVLTree.balance (.NonEmpty v l r 0) = .NonEmpty v l r 0 ∧
    AVLTree.balance (.NonEmpty v l r 1) = .NonEmpty v l r 1 := by
  refine ⟨?_, ?_, ?_, ?_, ?_, ?_, ?_, ?_, ?_, ?_, ?_, ?_, ?_⟩ <;>
    norm_num [AVLTree.balance]

/-- C8 counterexample: inserting 3, 4, 1, 2, 0 in that order does NOT leave
a tree rooted at 1 after the fifth insertion; the insertions trigger no
rotation and the root is 3. -/
theorem rotate_example_counterexample :
    (AVLTree.fromList [(3 : Nat), 4, 1, 2, 0]).rootValue = some 3 ∧
    (AVLTree.fromList [(3 : Nat), 4, 1, 2, 0]).rootValue ≠ some 1 := by decide

/-- C8 amended: after inserting 3, 4, 1, 2, 0 the tree is rooted at 3 with
left child 1 (children 0 and 2) and right child 4, and no rotation has
happened; ONE further explicit right rotation (as the unit test performs)
produces root 1, left child 0, right child 3 with 3's left child 2 — and 4
as 3's right child. -/
theorem rotate_example_amended :
    AVLTree.fromList [(3 : Nat), 4, 1, 2, 0] =
      .NonEmpty 3 (.NonEmpty 1 (.NonEmpty 0 .Empty .Empty 0) (.NonEmpty 2 .Empty .Empty 0) 0)
        (.NonEmpty 4 .Empty .Empty 0) (-1) ∧
    AVLTree.rotate_right (AVLTree.fromList [(3 : Nat), 4, 1, 2, 0]) =
      .NonEmpty 1 (.NonEmpty 0 .Empty .Empty 0)
        (.NonEmpty 3 (.NonEmpty 2 .Empty .Empty 0) (.NonEmpty 4 .Empty .Empty 0) (-1)) 0 := by
  decide

/-- The sequence of values an iterator stack still owes, top entry first:
each stacked node contributes its value followed by the in-order traversal
of its right subtree (its left spine is already deeper on the stack, or was
already consumed). -/
def flattenStack (stack : List (Node T)) : List T :=
  stack.foldr (fun n acc => n.value :: n.right.toList ++ acc) []

omit [LinearOrder T] in
theorem flattenStack_cons (n : Node T) (rest : List (Node T)) :
    flattenStack (n :: rest) = n.value :: (n.right.toList ++ flattenStack rest) := rfl

omit [LinearOrder T] in
theorem intoIter_flatten_traverse_left (t : AVLTree T) :
    ∀ stack : List (Node T),
      flattenStack (IntoIter.traverse_left stack t) = t.toList ++ flattenStack stack := by
  induction t with
  | Empty => intro stack; simp [IntoIter.traverse_left, AVLTree.toList]
  | NonEmpty v l r bf ihl ihr =>
    intro stack
    simp only [IntoIter.traverse_left]
    rw [ihl]
    simp [flattenStack_cons, AVLTree.toList]

omit [LinearOrder T] in
theorem intoIter_run_eq_flatten :
    ∀ (w : Nat) (stack : List (Node T)), IntoIter.stackWeight stack ≤ w →
      IntoIter.run ⟨stack⟩ = flattenStack stack := by
  intro w
  induction w with
  | zero =>
    intro stack hw
    cases stack with
    | nil => simp [IntoIter.run, flattenStack]
    | cons n rest =>
      exfalso
      rw [IntoIter.stackWeight_cons] at hw
      omega
  | succ w ih =>
    intro stack hw
    cases stack with
    | nil => simp [IntoIter.run, flattenStack]
    | cons n rest =>
      have e : IntoIter.run ⟨n :: rest⟩ =
          n.value :: IntoIter.run ⟨IntoIter.traverse_left rest n.right⟩ := by
        simp [IntoIter.run]
      have hw' : IntoIter.stackWeight (IntoIter.traverse_left rest n.right) ≤ w := by
        have h1 := IntoIter.stackWeight_traverse_left n.right rest
        rw [IntoIter.stackWeight_cons] at hw
        omega
      rw [e, ih _ hw', intoIter_flatten_traverse_left, flattenStack_cons]

omit [LinearOrder T] in
/-- Consuming iteration produces exactly the in-order traversal. -/
theorem intoIter_run_toList (t : AVLTree T) :
    IntoIter.run (IntoIter.new t) = t.toList := by
  have h := intoIter_run_eq_flatten
    (IntoIter.stackWeight (IntoIter.traverse_left [] t)) (IntoIter.traverse_left [] t) le_rfl
  rw [IntoIter.new, h, intoIter_flatten_traverse_left]
  simp [flattenStack]

omit [LinearOrder T] in
theorem rangeIter_flatten_traverse_left (t : AVLTree T) :
    ∀ stack : List (Node T),
      flattenStack (RangeIter.traverse_left stack t) = t.toList ++ flattenStack stack := by
  induction t with
  | Empty => intro stack; simp [RangeIter.traverse_left, AVLTree.toList]
  | NonEmpty v l r bf ihl ihr =>
    intro stack
    simp only [RangeIter.traverse_left]
    rw [ihl]
    simp [flattenStack_cons, AVLTree.toList]

theorem rangeIter_flatten_traverse (start : T) :
    ∀ {t : AVLTree T}, Ordered t → ∀ stack : List (Node T),
      flattenStack (RangeIter.traverse start stack t) =
        t.toList.filter (fun x => decide (start ≤ x)) ++ flattenStack stack := by
  intro t
  induction t with
  | Empty => intro _ stack; simp [RangeIter.traverse, AVLTree.toList]
  | NonEmpty v l r bf ihl ihr =>
    intro ho stack
    obtain ⟨hol, hor, hOl, hOr⟩ := ho
    cases hyp : AVLTree.cmp start v with
    | lt =>
      have hsv : start < v := cmp_lt_iff.mp hyp
      simp only [RangeIter.traverse, hyp]
      rw [ihl hOl, flattenStack_cons]
      simp only [AVLTree.toList, List.filter_append]
      have h1 : (v :: r.toList).filter (fun x => decide (start ≤ x)) = v :: r.toList := by
        rw [List.filter_eq_self]
        intro a ha
        rcases List.mem_cons.mp ha with rfl | ha'
        · simpa using hsv.le
        · simpa using (hsv.trans (all_iff.mp hor a ha')).le
      rw [h1]
      simp
    | eq =>
      have hsv : start = v := cmp_eq_iff.mp hyp
      simp only [RangeIter.traverse, hyp, flattenStack_cons]
      simp only [AVLTree.toList, List.filter_append]
      have h0 : l.toList.filter (fun x => decide (start ≤ x)) = [] := by
        rw [List.filter_eq_nil_iff]
        intro a ha
        have h2 := all_iff.mp hol a ha
        simp only [decide_eq_true_eq, not_le, hsv]
        exact h2
      have h1 : (v :: r.toList).filter (fun x => decide (start ≤ x)) = v :: r.toList := by
        rw [List.filter_eq_self]
        intro a ha
        rcases List.mem_cons.mp ha with rfl | ha'
        · simp [hsv]
        · have h3 := all_iff.mp hor a ha'
          simp only [decide_eq_true_eq, hsv]
          exact h3.le
      rw [h0, h1]
      simp
    | gt =>
      have hsv : v < start := cmp_gt_iff.mp hyp
      simp only [RangeIter.traverse, hyp]
      rw [ihr hOr]
      simp only [AVLTree.toList, List.filter_append]
      have h0 : l.toList.filter (fun x => decide (start ≤ x)) = [] := by
        rw [List.filter_eq_nil_iff]
        intro a ha
        simpa using ((all_iff.mp hol a ha).trans hsv)
      have h1 : (v :: r.toList).filter (fun x => decide (start ≤ x)) =
          r.toList.filter (fun x => decide (start ≤ x)) := by
        rw [List.filter_cons_of_neg]
        simpa using hsv
      rw [h0, h1]
      simp

theorem rangeIter_run_none :
    ∀ (w : Nat) (stack : List (Node T)), IntoIter.stackWeight stack ≤ w →
      RangeIter.run ⟨none, stack⟩ = flattenStack stack := by
  intro w
  induction w with
  | zero =>
    intro stack hw
    cases stack with
    | nil => simp [RangeIter.run, flattenStack]
    | cons n rest =>
      exfalso
      rw [IntoIter.stackWeight_cons] at hw
      omega
  | succ w ih =>
    intro stack hw
    cases stack with
    | nil => simp [RangeIter.run, flattenStack]
    | cons n rest =>
      have e : RangeIter.run ⟨none, n :: rest⟩ =
          n.value :: RangeIter.run ⟨none, RangeIter.traverse_left rest n.right⟩ := by
        simp [RangeIter.run]
      have hw' : IntoIter.stackWeight (RangeIter.traverse_left rest n.right) ≤ w := by
        have h1 := RangeIter.stackWeight_rtraverse n.right rest
        rw [IntoIter.stackWeight_cons] at hw
        omega
      rw [e, ih _ hw', rangeIter_flatten_traverse_left, flattenStack_cons]

theorem rangeIter_run_some (e : T) :
    ∀ (w : Nat) (stack : List (Node T)), IntoIter.stackWeight stack ≤ w →
      (flattenStack stack).Pairwise (fun a b => a < b) →
      RangeIter.run ⟨some e, stack⟩ =
        (flattenStack stack).takeWhile (fun x => decide (x < e)) := by
  intro w
  induction w with
  | zero =>
    intro stack hw _
    cases stack with
    | nil => simp [RangeIter.run, flattenStack]
    | cons n rest =>
      exfalso
      rw [IntoIter.stackWeight_cons] at hw
      omega
  | succ w ih =>
    intro stack hw hp
    cases stack with
    | nil => simp [RangeIter.run, flattenStack]
    | cons n rest =>
      rw [flattenStack_cons] at hp
      cases hcmp : AVLTree.cmp e n.value with
      | gt =>
        have hlt : n.value < e := cmp_gt_iff.mp hcmp
        have e1 : RangeIter.run ⟨some e, n :: rest⟩ =
            n.value :: RangeIter.run ⟨some e, RangeIter.traverse_left rest n.right⟩ := by
          simp [RangeIter.run, hcmp]
        have hw' : IntoIter.stackWeight (RangeIter.traverse_left rest n.right) ≤ w := by
          have h1 := RangeIter.stackWeight_rtraverse n.right rest
          rw [IntoIter.stackWeight_cons] at hw
          omega
        have hp' : (flattenStack (RangeIter.traverse_left rest n.right)).Pairwise
            (fun a b => a < b) := by
          rw [rangeIter_flatten_traverse_left]
          exact hp.of_cons
        rw [e1, ih _ hw' hp', rangeIter_flatten_traverse_left, flattenStack_cons,
          List.takeWhile_cons]
        simp [hlt]
      | lt =>
        have hge : e < n.value := cmp_lt_iff.mp hcmp
        have e1 : RangeIter.run ⟨some e, n :: rest⟩ = [] := by
          simp [RangeIter.run, hcmp]
        rw [e1, flattenStack_cons, List.takeWhile_cons]
        simp [asymm hge]
      | eq =>
        have heq : e = n.value := cmp_eq_iff.mp hcmp
        have hnl : ¬ n.value < e := by
          rw [heq]
          exact lt_irrefl _
        have e1 : RangeIter.run ⟨some e, n :: rest⟩ = [] := by
          simp [RangeIter.run, hcmp]
        rw [e1, flattenStack_cons, List.takeWhile_cons]
        simp [hnl]

theorem rangeIter_runN_nil (e : Option T) : ∀ n : Nat, RangeIter.runN n ⟨e, []⟩ = [] := by
  intro n
  induction n with
  | zero => rfl
  | succ n ih =>
    have e1 : RangeIter.runN (n + 1) ⟨e, []⟩ = RangeIter.runN n ⟨e, []⟩ := by
      simp [RangeIter.runN, RangeIter.next]
    rw [e1, ih]

theorem rangeIter_runN_blocked (e : T) :
    ∀ (n : Nat) (stack : List (Node T)),
      (∀ x ∈ flattenStack stack, ¬ x < e) →
      RangeIter.runN n ⟨some e, stack⟩ = [] := by
  intro n
  induction n with
  | zero => intro stack _; rfl
  | succ n ih =>
    intro stack hall
    cases stack with
    | nil => exact rangeIter_runN_nil _ _
    | cons m rest =>
      have hm : ¬ m.value < e := hall m.value (by rw [flattenStack_cons]; exact List.mem_cons_self _ _)
      have hrest : ∀ x ∈ flattenStack rest, ¬ x < e := fun x hx =>
        hall x (by rw [flattenStack_cons]; exact List.mem_cons_of_mem _ (List.mem_append_right _ hx))
      cases hcmp : AVLTree.cmp e m.value with
      | gt => exact absurd (cmp_gt_iff.mp hcmp) hm
      | lt =>
        have e1 : RangeIter.runN (n + 1) ⟨some e, m :: rest⟩ =
            RangeIter.runN n ⟨some e, rest⟩ := by
          simp [RangeIter.runN, RangeIter.next, hcmp]
        rw [e1]
        exact ih rest hrest
      | eq =>
        have e1 : RangeIter.runN (n + 1) ⟨some e, m :: rest⟩ =
            RangeIter.runN n ⟨some e, rest⟩ := by
          simp [RangeIter.runN, RangeIter.next, hcmp]
        rw [e1]
        exact ih rest hrest

theorem rangeIter_runN_eq_take :
    ∀ (n : Nat) (ev : Option T) (stack : List (Node T)),
      (flattenStack stack).Pairwise (fun a b => a < b) →
      RangeIter.runN n ⟨ev, stack⟩ = (RangeIter.run ⟨ev, stack⟩).take n := by
  intro n
  induction n with
  | zero => intro ev stack _; rfl
  | succ n ih =>
    intro ev stack hp
    cases stack with
    | nil =>
      rw [rangeIter_runN_nil]
      simp [RangeIter.run]
    | cons m rest =>
      rw [flattenStack_cons] at hp
      cases ev with
      | none =>
        have e1 : RangeIter.runN (n + 1) ⟨none, m :: rest⟩ =
            m.value :: RangeIter.runN n ⟨none, RangeIter.traverse_left rest m.right⟩ := by
          simp [RangeIter.runN, RangeIter.next]
        have e2 : RangeIter.run ⟨none, m :: rest⟩ =
            m.value :: RangeIter.run ⟨none, RangeIter.traverse_left rest m.right⟩ := by
          simp [RangeIter.run]
        have hp' : (flattenStack (RangeIter.traverse_left rest m.right)).Pairwise
            (fun a b => a < b) := by
          rw [rangeIter_flatten_traverse_left]
          exact hp.of_cons
        rw [e1, e2, ih _ _ hp', List.take_succ_cons]
      | some e =>
        cases hcmp : AVLTree.cmp e m.value with
        | gt =>
          have e1 : RangeIter.runN (n + 1) ⟨some e, m :: rest⟩ =
              m.value :: RangeIter.runN n ⟨some e, RangeIter.traverse_left rest m.right⟩ := by
            simp [RangeIter.runN, RangeIter.next, hcmp]
          have e2 : RangeIter.run ⟨some e, m :: rest⟩ =
              m.value :: RangeIter.run ⟨some e, RangeIter.traverse_left rest m.right⟩ := by
            simp [RangeIter.run, hcmp]
          have hp' : (flattenStack (RangeIter.traverse_left rest m.right)).Pairwise
              (fun a b => a < b) := by
            rw [rangeIter_flatten_traverse_left]
            exact hp.of_cons
          rw [e1, e2, ih _ _ hp', List.take_succ_cons]
        | lt =>
          have hnl : ¬ m.value < e := asymm (cmp_lt_iff.mp hcmp)
          have e1 : RangeIter.runN (n + 1) ⟨some e, m :: rest⟩ =
              RangeIter.runN n ⟨some e, rest⟩ := by
            simp [RangeIter.runN, RangeIter.next, hcmp]
          have e2 : RangeIter.run ⟨some e, m :: rest⟩ = [] := by
            simp [RangeIter.run, hcmp]
          rw [e1, e2, rangeIter_runN_blocked e n rest ?_]
          · simp
          · intro x hx hxe
            have hmx : m.value < x :=
              (List.pairwise_cons.mp hp).1 x (List.mem_append_right _ hx)
            exact hnl (hmx.trans hxe)
        | eq =>
          have hnl : ¬ m.value < e := by
            rw [cmp_eq_iff.mp hcmp]
            exact lt_irrefl _
          have e1 : RangeIter.runN (n + 1) ⟨some e, m :: rest⟩ =
              RangeIter.runN n ⟨some e, rest⟩ := by
            simp [RangeIter.runN, RangeIter.next, hcmp]
          have e2 : RangeIter.run ⟨some e, m :: rest⟩ = [] := by
            simp [RangeIter.run, hcmp]
          rw [e1, e2, rangeIter_runN_blocked e n rest ?_]
          · simp
          · intro x hx hxe
            have hmx : m.value < x :=
              (List.pairwise_cons.mp hp).1 x (List.mem_append_right _ hx)
            exact hnl (hmx.trans hxe)

theorem takeWhile_eq_filter_of_sorted (e : T) :
    ∀ l : List T, l.Pairwise (fun a b => a < b) →
      l.takeWhile (fun x => decide (x < e)) = l.filter (fun x => decide (x < e)) := by
  intro l
  induction l with
  | nil => intro _; rfl
  | cons a as ih =>
    intro hp
    by_cases hae : a < e
    · rw [List.takeWhile_cons, List.filter_cons]
      simp only [decide_eq_true_eq, if_pos hae]
      rw [ih hp.of_cons]
    · rw [List.takeWhile_cons, List.filter_cons]
      simp only [decide_eq_true_eq, if_neg hae]
      symm
      rw [List.filter_eq_nil_iff]
      intro x hx hxe
      have hax : a < x := (List.pairwise_cons.mp hp).1 x hx
      simp only [decide_eq_true_eq] at hxe
      exact hae (hax.trans hxe)

/-- The inclusive lower-bound test of range: with no start everything passes,
with a start only values at least start pass. -/
def lowerOK : Option T → T → Bool
  | none, _ => true
  | some s, x => decide (s ≤ x)

/-- The exclusive upper-bound test of range: with no end everything passes,
with an end only values strictly below it pass. -/
def upperOK : Option T → T → Bool
  | none, _ => true
  | some e, x => decide (x < e)

/-- C5: range(start, end) yields, in ascending order, exactly the elements
v of the tree with start ≤ v (when start is given) and v < end (when end is
given); and the yielded sequence over any number of next() calls is a prefix
of that list, so once a popped candidate fails the exclusive end bound the
iteration yields nothing further even though the stack may be non-empty. -/
theorem range_half_open (t : AVLTree T) (start endv : Option T) (h : Ordered t) :
    RangeIter.run (AVLTree.range t start endv) =
      t.toList.filter (fun x => lowerOK start x && upperOK endv x) ∧
    (∀ n : Nat, RangeIter.runN n (AVLTree.range t start endv) =
      (RangeIter.run (AVLTree.range t start endv)).take n) := by
  have hflat : flattenStack (AVLTree.range t start endv).stack =
      t.toList.filter (fun x => lowerOK start x) := by
    cases start with
    | none =>
      show flattenStack (RangeIter.traverse_left [] t) = _
      rw [rangeIter_flatten_traverse_left]
      simp [flattenStack, lowerOK]
    | some s =>
      show flattenStack (RangeIter.traverse s [] t) = _
      rw [rangeIter_flatten_traverse s h]
      simp [flattenStack, lowerOK]
  have hpair : (flattenStack (AVLTree.range t start endv).stack).Pairwise
      (fun a b => a < b) := by
    rw [hflat]
    exact List.Pairwise.sublist (List.filter_sublist _) (ordered_iff_pairwise.mp h)
  have hrun : RangeIter.run (AVLTree.range t start endv) =
      t.toList.filter (fun x => lowerOK start x && upperOK endv x) := by
    cases endv with
    | none =>
      have h1 := rangeIter_run_none
        (IntoIter.stackWeight (AVLTree.range t start none).stack)
        (AVLTree.range t start none).stack le_rfl
      rw [show AVLTree.range t start none =
        ⟨none, (AVLTree.range t start none).stack⟩ from rfl, h1, hflat]
      apply List.filter_congr
      intro x _
      simp [upperOK]
    | some e =>
      have h1 := rangeIter_run_some e
        (IntoIter.stackWeight (AVLTree.range t start (some e)).stack)
        (AVLTree.range t start (some e)).stack le_rfl hpair
      rw [show AVLTree.range t start (some e) =
        ⟨some e, (AVLTree.range t start (some e)).stack⟩ from rfl, h1,
        takeWhile_eq_filter_of_sorted e _ hpair, hflat, List.filter_filter]
      apply List.filter_congr
      intro x _
      simp [upperOK, Bool.and_comm]
  refine ⟨hrun, ?_⟩
  intro n
  have h2 := rangeIter_runN_eq_take n endv (AVLTree.range t start endv).stack hpair
  rw [show AVLTree.range t start endv =
    ⟨endv, (AVLTree.range t start endv).stack⟩ from rfl]
  exact h2

theorem range_half_open_witness :
    RangeIter.run (AVLTree.range (AVLTree.fromList [(1 : Nat), 2, 3, 4]) (some 2) (some 4)) =
      [2, 3] :=
  ((range_half_open (AVLTree.fromList [(1 : Nat), 2, 3, 4]) (some 2) (some 4)
    (by decide)).1).trans (by decide)

/-- C4: on a tree built by inserting any list of distinct values, borrowing
iteration and consuming iteration yield the same sequence, which is strictly
ascending and a permutation of the inserted values — the sorted sequence of
the inserted set. -/
theorem iter_sorted_of_nodup (l : List T) (h : l.Nodup) :
    IntoIter.run (IntoIter.new (AVLTree.fromList l)) =
      RangeIter.run (AVLTree.iter (AVLTree.fromList l)) ∧
    (RangeIter.run (AVLTree.iter (AVLTree.fromList l))).Pairwise (fun a b => a < b) ∧
    (RangeIter.run (AVLTree.iter (AVLTree.fromList l))).Perm l := by
  have hInv := fromList_inv l
  have hrun : RangeIter.run (AVLTree.iter (AVLTree.fromList l)) =
      (AVLTree.fromList l).toList := by
    have h1 := rangeIter_run_none
      (IntoIter.stackWeight (RangeIter.traverse_left [] (AVLTree.fromList l)))
      (RangeIter.traverse_left [] (AVLTree.fromList l)) le_rfl
    show RangeIter.run ⟨none, RangeIter.traverse_left [] (AVLTree.fromList l)⟩ = _
    rw [h1, rangeIter_flatten_traverse_left]
    simp [flattenStack]
  refine ⟨?_, ?_, ?_⟩
  · rw [intoIter_run_toList, hrun]
  · rw [hrun]
    exact ordered_iff_pairwise.mp hInv.2.2
  · rw [hrun, List.perm_ext_iff_of_nodup (toList_nodup hInv.2.2) h]
    intro a
    exact mem_fromList l

theorem iter_sorted_of_nodup_witness :
    (IntoIter.run (IntoIter.new (AVLTree.fromList [(3 : Nat), 1, 2])) =
      RangeIter.run (AVLTree.iter (AVLTree.fromList [(3 : Nat), 1, 2]))) ∧
    (RangeIter.run (AVLTree.iter (AVLTree.fromList [(3 : Nat), 1, 2]))).Pairwise
      (fun a b => a < b) ∧
    (RangeIter.run (AVLTree.iter (AVLTree.fromList [(3 : Nat), 1, 2]))).Perm [3, 1, 2] :=
  iter_sorted_of_nodup [3, 1, 2] (by decide)

/-- C10: iter() is the range query with both bounds absent — the same
definition, so the same iterator state and the same yielded sequence under
any number of next() calls. -/
theorem iter_eq_range (t : AVLTree T) :
    AVLTree.iter t = AVLTree.range t none none ∧
    RangeIter.run (AVLTree.iter t) = RangeIter.run (AVLTree.range t none none) ∧
    ∀ n : Nat, RangeIter.runN n (AVLTree.iter t) =
      RangeIter.runN n (AVLTree.range t none none) :=
  ⟨rfl, rfl, fun _ => rfl⟩

end Avl
